import Mathlib

/-!
Verification development for a Huffman-coding pipeline (Rust, `src/main.rs`).

The Rust source is shallowly embedded:

* `BTreeMap<K, V>` is embedded as an association list sorted strictly
  ascending by key (the representation invariant of an ordered map together
  with its ascending iteration order, which the source relies on in
  `frequency`, `codebook` and `decode`).
* `BinaryHeap<T>` (a max-heap) is embedded operation by operation following
  the std implementation: `push` appends then sifts up, `pop` swaps the last
  element to the root and sifts down to the bottom then up, and
  `collect`/`From<Vec<T>>` rebuilds by sifting down every non-leaf index.
  Loops over array indices are written with an explicit structural fuel
  argument; each initial fuel value is sufficient for the loop to run to
  completion (proved where it matters), so the fuel never changes behaviour.
* `u32` occurrence counts are embedded as `Nat`.
* `panic!` outcomes are embedded as distinguished result constructors
  (`EncodeResult.panicked`, `DecodeOut.panicNoEntry`), and the `decode`
  `while` loop carries a fuel whose exhaustion (`none`) models divergence.
-/

/-- Association-list lookup, modelling `BTreeMap` indexing/`get`:
the value stored at the first matching key. -/
def lookupA [DecidableEq α] (x : α) : List (α × β) → Option β
  | [] => none
  | (k, v) :: rest => if x = k then some v else lookupA x rest

/-- Keys of an association list, in order. -/
def keysA (m : List (α × β)) : List α := m.map Prod.fst

/-- Sum of the values of an association list. -/
def sumVals (m : List (α × Nat)) : Nat := (m.map Prod.snd).sum

/-- Sorted-map invariant of the `BTreeMap` embedding: keys strictly ascending. -/
def sortedKeys [LT α] (m : List (α × β)) : Prop := List.Chain' (· < ·) (keysA m)

/-- One step of `frequency`, modelling `*map.entry(element).or_default() += 1`
on the sorted-association-list representation of the `BTreeMap`. -/
def bump [LinearOrder α] (x : α) : List (α × Nat) → List (α × Nat)
  | [] => [(x, 1)]
  | (k, v) :: rest =>
    if x < k then (x, 1) :: (k, v) :: rest
    else if x = k then (k, v + 1) :: rest
    else (k, v) :: bump x rest

/-- Embedding of `frequency` (src/main.rs:152-157): fold the input sequence
into a `BTreeMap`, incrementing the count of each element (starting at 0). -/
def frequency [LinearOrder α] (l : List α) : List (α × Nat) :=
  l.foldl (fun m e => bump e m) []

/-- Sorted insertion replacing an existing binding, the effect of moving one
entry of `other` into `self` during `BTreeMap::append` (values of `other`
overwrite values of `self` at equal keys). -/
def insertEntry [LinearOrder α] (k : α) (v : β) : List (α × β) → List (α × β)
  | [] => [(k, v)]
  | (k2, v2) :: rest =>
    if k < k2 then (k, v) :: (k2, v2) :: rest
    else if k2 < k then (k2, v2) :: insertEntry k v rest
    else (k, v) :: rest

/-- Embedding of `BTreeMap::append` on the sorted-list representation: move
every entry of `other` into `self`, entries of `other` winning at equal keys. -/
def mergeA [LinearOrder α] (l other : List (α × β)) : List (α × β) :=
  other.foldl (fun acc p => insertEntry p.1 p.2 acc) l

/-- Embedding of `enum HuffTree` (src/main.rs:12-21): a leaf holds an
occurrence count `occ : u32` and a character; a node owns two subtrees. -/
inductive HuffTree
  | leaf (occ : Nat) (chr : Char)
  | node (left : HuffTree) (right : HuffTree)
deriving DecidableEq

/-- Embedding of `HuffTree::new` (src/main.rs:24-26). -/
def HuffTree.new (chr : Char) (occ : Nat) : HuffTree := .leaf occ chr

/-- Embedding of `HuffTree::merge` (src/main.rs:27-32): `self` becomes the
left child, `other` the right child. -/
def HuffTree.merge (s other : HuffTree) : HuffTree := .node s other

/-- Embedding of `HuffTree::chars` (src/main.rs:33-38): concatenated leaf
characters, left to right. -/
def HuffTree.chars : HuffTree → List Char
  | .leaf _ chr => [chr]
  | .node l r => l.chars ++ r.chars

/-- Embedding of `HuffTree::lettercount` (src/main.rs:39-44): the total
weight, computed on demand as the sum of the leaf occurrence counts. -/
def HuffTree.lettercount : HuffTree → Nat
  | .leaf occ _ => occ
  | .node l r => l.lettercount + r.lettercount

/-- Embedding of `impl Ord for HuffTree` (src/main.rs:67-71):
`self.lettercount().cmp(&other.lettercount()).reverse()`. `Ordering.swap`
is Rust's `Ordering::reverse`. -/
def HuffTree.cmp (s other : HuffTree) : Ordering :=
  (compare s.lettercount other.lettercount).swap

/-- Rust `self <= other` under the `Ord` impl: `cmp` is not `Greater`. -/
def hleT (a b : HuffTree) : Bool := HuffTree.cmp a b ≠ .gt

/-- Rust `self > other` under the `Ord` impl: `cmp` is `Greater`. -/
def hgtT (a b : HuffTree) : Bool := HuffTree.cmp a b = .gt

/-- Rust `self >= other` under the `Ord` impl: `cmp` is not `Less`. -/
def hgeT (a b : HuffTree) : Bool := HuffTree.cmp a b ≠ .lt

/-- Placeholder tree returned by out-of-bounds reads; every read in the heap
algorithms below is in bounds, so it never influences a result. -/
def dflT : HuffTree := .leaf 0 ' '

/-- Read of the heap's backing vector at an index. -/
def hget (l : List HuffTree) (i : Nat) : HuffTree := l.getD i dflT

/-- Swap of two indices of the heap's backing vector. -/
def swapT (l : List HuffTree) (i j : Nat) : List HuffTree :=
  (l.set i (hget l j)).set j (hget l i)

/-- Embedding of `BinaryHeap::sift_up(start, pos)`: move the element at `pos`
toward the root while it is strictly greater than its parent. The hole
optimisation of std is rendered as swaps, which produce the same array. The
structural fuel is initialised to `pos`; since the position strictly
decreases each step, `pos` steps always suffice, and at fuel 0 the position
is 0 ≤ `start`, where the loop stops anyway. -/
def siftUpGo : Nat → List HuffTree → Nat → Nat → List HuffTree
  | 0, l, _, _ => l
  | fuel + 1, l, start, pos =>
    if pos > start then
      if hleT (hget l pos) (hget l ((pos - 1) / 2)) then l
      else siftUpGo fuel (swapT l pos ((pos - 1) / 2)) start ((pos - 1) / 2)
    else l

/-- Entry point of `sift_up`. -/
def siftUp (l : List HuffTree) (start pos : Nat) : List HuffTree :=
  siftUpGo pos l start pos

/-- Child selection shared by the sift-down loops: starting from the left
child index, move to the right sibling when it exists and the left child is
not strictly greater (`child += (hole.get(child) <= hole.get(child + 1))`
in std, written there as the negation of `>`). -/
def pickChild (l : List HuffTree) (child : Nat) : Nat :=
  if child + 1 < l.length ∧ ¬ hgtT (hget l child) (hget l (child + 1))
    then child + 1 else child

/-- Embedding of `BinaryHeap::sift_down_to_bottom(pos)` (used by `pop`):
move the hole to the bottom of the tree along the greater child without
comparing against the moved element, then sift the element back up. Fuel is
initialised to `l.length`; the position strictly increases while remaining
below `l.length`, so this suffices, and at fuel 0 the child index is out of
range, where the loop stops anyway. -/
def siftDownBotGo : Nat → List HuffTree → Nat → Nat → List HuffTree
  | 0, l, start, pos => siftUp l start pos
  | fuel + 1, l, start, pos =>
    if 2 * pos + 1 < l.length then
      siftDownBotGo fuel (swapT l pos (pickChild l (2 * pos + 1))) start
        (pickChild l (2 * pos + 1))
    else siftUp l start pos

/-- Entry point of `sift_down_to_bottom`. -/
def siftDownBottom (l : List HuffTree) (pos : Nat) : List HuffTree :=
  siftDownBotGo l.length l pos pos

/-- Embedding of `BinaryHeap::sift_down_range(pos, len)` (used by the
`rebuild` performed by `BinaryHeap::from(vec)`): move the element at `pos`
down along the greater child while it is strictly smaller than that child. -/
def siftDownGo : Nat → List HuffTree → Nat → List HuffTree
  | 0, l, _ => l
  | fuel + 1, l, pos =>
    if 2 * pos + 1 < l.length then
      if hgeT (hget l pos) (hget l (pickChild l (2 * pos + 1))) then l
      else siftDownGo fuel (swapT l pos (pickChild l (2 * pos + 1)))
        (pickChild l (2 * pos + 1))
    else l

/-- Entry point of `sift_down`. -/
def siftDown (l : List HuffTree) (pos : Nat) : List HuffTree :=
  siftDownGo l.length l pos

/-- Embedding of `BinaryHeap::rebuild`: `sift_down(n-1), ..., sift_down(0)`
starting from `n = len / 2`. -/
def rebuildFrom : List HuffTree → Nat → List HuffTree
  | l, 0 => l
  | l, n + 1 => rebuildFrom (siftDown l n) n

/-- Embedding of `iter.collect::<BinaryHeap<_>>()`, i.e.
`BinaryHeap::from(vec)`: take the vector and rebuild the heap property. -/
def heapOfList (l : List HuffTree) : List HuffTree := rebuildFrom l (l.length / 2)

/-- Embedding of `BinaryHeap::push`: append, then sift up from the old
length. -/
def heapPush (l : List HuffTree) (t : HuffTree) : List HuffTree :=
  siftUp (l ++ [t]) 0 l.length

/-- Embedding of `BinaryHeap::pop`: remove the last element of the backing
vector; if the rest is non-empty, swap it with the root and sift the root
down to the bottom. Returns the old root (the popped maximum) and the new
heap. -/
def heapPop (l : List HuffTree) : Option (HuffTree × List HuffTree) :=
  match l with
  | [] => none
  | _ :: _ =>
    let last := hget l (l.length - 1)
    let rest := l.dropLast
    match rest with
    | [] => some (last, [])
    | _ :: _ => some (hget rest 0, siftDownBottom (rest.set 0 last) 0)

/-- Embedding of the `loop` in `huffman` (src/main.rs:92-97): pop two trees;
if both exist, push their merge and continue; otherwise stop with the first
pop's result. The structural fuel is initialised to the heap size; each
iteration shrinks the heap by one, so this suffices, and fuel 0 coincides
with the empty heap, where the loop stops with `None` anyway. -/
def huffLoopF : Nat → List HuffTree → Option HuffTree
  | 0, _ => none
  | fuel + 1, heap =>
    match heapPop heap with
    | none => none
    | some (first, h1) =>
      match heapPop h1 with
      | none => some first
      | some (second, h2) => huffLoopF fuel (heapPush h2 (first.merge second))

/-- Embedding of `huffman` (src/main.rs:85-97): wrap every frequency-table
entry as a leaf (the `BTreeMap` iterates in ascending key order), collect
into a `BinaryHeap`, then iteratively combine the two minimal elements. -/
def huffman (freqTable : List (Char × Nat)) : Option HuffTree :=
  let heap := heapOfList (freqTable.map fun p => HuffTree.new p.1 p.2)
  huffLoopF heap.length heap

/-- Embedding of the nested `traverse` of `codebook` (src/main.rs:103-120):
at a leaf, a singleton map from the leaf's character to the accumulated
path; at a node, traverse left with `false` appended and right with `true`
appended, then `BTreeMap::append` the right map into the left one. -/
def traverseCB : HuffTree → List Bool → List (Char × List Bool)
  | .leaf _ chr, bv => [(chr, bv)]
  | .node l r, bv => mergeA (traverseCB l (bv ++ [false])) (traverseCB r (bv ++ [true]))

/-- Embedding of `codebook` (src/main.rs:102-121): traverse from the root
with the empty bit vector. -/
def codebook (huff : HuffTree) : List (Char × List Bool) :=
  traverseCB huff []

/-- Embedding of `message.chars().flat_map(|c| codebook[&c].clone())`
(src/main.rs:129): concatenate the code of every message character in
order; `none` models the panic of `BTreeMap` indexing at a missing key. -/
def encodeSyms (cb : List (Char × List Bool)) : List Char → Option (List Bool)
  | [] => some []
  | c :: rest =>
    match lookupA c cb, encodeSyms cb rest with
    | some code, some bs => some (code ++ bs)
    | _, _ => none

/-- Result of `encode`: `nothing` models `None` (empty message), `panicked`
models the panic of indexing a missing codebook entry, `ok` models
`Some((codebook, bits))`. -/
inductive EncodeResult
  | nothing
  | panicked
  | ok (cb : List (Char × List Bool)) (bits : List Bool)
deriving DecidableEq

/-- Embedding of `encode` (src/main.rs:124-131): count frequencies, build
the Huffman tree (`None` propagates), derive the codebook, and concatenate
the codes of the message characters. The `println!` of the tree is a
diagnostic side effect with no bearing on the returned value. -/
def encode (message : List Char) : EncodeResult :=
  match huffman (frequency message) with
  | none => .nothing
  | some t =>
    match encodeSyms (codebook t) message with
    | none => .panicked
    | some bits => .ok (codebook t) bits

/-- First codebook entry, in map (ascending-key) order, whose code is a
prefix of the remaining bits: the `for (chr, code) in codebook` scan with
`bits.starts_with(code)` inside the decode loop. -/
def findCode : List (Char × List Bool) → List Bool → Option (Char × List Bool)
  | [], _ => none
  | (c, code) :: rest, bits =>
    if code.isPrefixOf bits then some (c, code) else findCode rest bits

/-- Outcome of the decode loop: a reconstructed message, or the
`panic!("No entry in code")` abort. -/
inductive DecodeOut
  | ok (s : List Char)
  | panicNoEntry
deriving DecidableEq

/-- Continuation of one decode-loop iteration: prepend the matched character
to the rest of the loop's output (`decoded.push(*chr)` in emission order),
propagating the panic and divergence of the remaining iterations. -/
def decodeStep (c : Char) : Option DecodeOut → Option DecodeOut
  | none => none
  | some .panicNoEntry => some .panicNoEntry
  | some (.ok s) => some (.ok (c :: s))

/-- Embedding of the `while` loop of `decode` (src/main.rs:133-150) with an
explicit fuel: while bits remain, scan the codebook for an entry whose code
is a prefix of the remaining bits; on a match, emit the character and drop
the matched length; otherwise panic. `none` (fuel exhausted) models a
non-terminating loop, which the source reaches when a matched code is empty. -/
def decodeF (cb : List (Char × List Bool)) : Nat → List Bool → Option DecodeOut
  | 0, _ => none
  | fuel + 1, bits =>
    if bits.isEmpty then some (.ok [])
    else
      match findCode cb bits with
      | none => some .panicNoEntry
      | some (c, code) => decodeStep c (decodeF cb fuel (bits.drop code.length))

/-- Embedding of `decode` (src/main.rs:133-150) at fuel `bits.length + 1`,
which suffices for every terminating run of the loop (each iteration either
consumes at least one bit, stops, or runs forever on an empty code). -/
def decode (cb : List (Char × List Bool)) (bits : List Bool) : Option DecodeOut :=
  decodeF cb (bits.length + 1) bits

/-- All subtrees of a tree, the tree itself included. -/
def subtrees : HuffTree → List HuffTree
  | .leaf occ chr => [.leaf occ chr]
  | .node l r => .node l r :: (subtrees l ++ subtrees r)

/-- Leaves of a tree as (occurrence count, character) pairs, left to right;
`chars` and `lettercount` both factor through this. -/
def leavesT : HuffTree → List (Nat × Char)
  | .leaf occ chr => [(occ, chr)]
  | .node l r => leavesT l ++ leavesT r

/-- Mutual prefix-freedom of a codebook: no entry's code is a prefix of
another distinct entry's code. -/
def prefixFree (cb : List (Char × List Bool)) : Prop :=
  ∀ c1 b1 c2 b2, (c1, b1) ∈ cb → (c2, b2) ∈ cb → c1 ≠ c2 → ¬ (b1 <+: b2)

/-! ## Generic list helpers -/

theorem hget_eq_getElem {l : List HuffTree} {i : Nat} (h : i < l.length) :
    hget l i = l[i] :=
  List.getD_eq_getElem l dflT h

theorem swapT_length (l : List HuffTree) (i j : Nat) :
    (swapT l i j).length = l.length := by
  simp [swapT]

theorem count_le_of_getElem {l : List HuffTree} {i : Nat} (h : i < l.length) (x : HuffTree) :
    (if l[i] = x then 1 else 0) ≤ l.count x := by
  split
  · next heq => exact List.one_le_count_iff.mpr (heq ▸ List.getElem_mem h)
  · exact Nat.zero_le _

theorem swapT_perm (l : List HuffTree) (i j : Nat) (hi : i < l.length) (hj : j < l.length) :
    (swapT l i j).Perm l := by
  rw [List.perm_iff_count]
  intro x
  rcases eq_or_ne i j with rfl | hij
  · unfold swapT
    rw [hget_eq_getElem hi]
    have hj' : i < (l.set i l[i]).length := by simpa using hi
    rw [List.count_set _ _ _ _ hj', List.count_set _ _ _ _ hi]
    have hle := count_le_of_getElem hi x
    have hset : (l.set i l[i])[i] = l[i] := List.getElem_set_self hj'
    rw [hset]
    simp only [beq_iff_eq]
    by_cases hx : l[i] = x
    · rw [if_pos hx] at hle
      simp only [hx, eq_self_iff_true, if_true]
      omega
    · simp only [hx, if_false]
      omega
  · unfold swapT
    rw [hget_eq_getElem hi, hget_eq_getElem hj]
    have hj' : j < (l.set i l[j]).length := by simpa using hj
    rw [List.count_set _ _ _ _ hj', List.count_set _ _ _ _ hi]
    have hset : (l.set i l[j])[j] = l[j] := List.getElem_set_ne hij hj'
    rw [hset]
    have hle1 := count_le_of_getElem hi x
    have hle2 := count_le_of_getElem hj x
    simp only [beq_iff_eq]
    by_cases h1 : l[i] = x
    · rw [if_pos h1] at hle1
      by_cases h2 : l[j] = x
      · rw [if_pos h2] at hle2
        simp only [h1, h2, eq_self_iff_true, if_true]
        omega
      · simp only [h1, h2, eq_self_iff_true, if_true, if_false]
        omega
    · by_cases h2 : l[j] = x
      · rw [if_pos h2] at hle2
        simp only [h1, h2, eq_self_iff_true, if_true, if_false]
        omega
      · simp only [h1, h2, if_false]
        omega

theorem pfx_total {a b l : List Bool} (ha : a <+: l) (hb : b <+: l)
    (hab : a.length ≤ b.length) : a <+: b := by
  have hta : a = l.take a.length := List.prefix_iff_eq_take.mp ha
  have htb : b = l.take b.length := List.prefix_iff_eq_take.mp hb
  have : b.take a.length = a := by
    rw [htb, List.take_take, Nat.min_eq_left hab, ← hta]
  rw [← this]
  exact List.take_prefix _ _

theorem pfx_eq_of_length {a b l : List Bool} (ha : a <+: l) (hb : b <+: l)
    (hab : a.length = b.length) : a = b :=
  (pfx_total ha hb hab.le).eq_of_length hab

theorem two_le_length_of_mem_ne {l : List α} {a b : α} (ha : a ∈ l) (hb : b ∈ l)
    (hab : a ≠ b) : 2 ≤ l.length := by
  match l with
  | [] => cases ha
  | [x] =>
    rw [List.mem_singleton] at ha hb
    exact absurd (ha.trans hb.symm) hab
  | _ :: _ :: _ => simp only [List.length_cons]; omega

/-! ## Heap permutation lemmas -/

theorem pickChild_lt {l : List HuffTree} {c : Nat} (h : c < l.length) :
    pickChild l c < l.length := by
  unfold pickChild
  split
  · next hc => exact hc.1
  · exact h

theorem pickChild_gt (l : List HuffTree) (c : Nat) : c ≤ pickChild l c := by
  unfold pickChild
  split
  · omega
  · exact Nat.le_refl c

theorem siftUpGo_perm : ∀ (fuel : Nat) (l : List HuffTree) (start pos : Nat),
    pos < l.length → (siftUpGo fuel l start pos).Perm l
  | 0, l, _, _, _ => List.Perm.refl l
  | fuel + 1, l, start, pos, h => by
    unfold siftUpGo
    split
    · split
      · exact List.Perm.refl l
      · next hgt _ =>
        have hp : (pos - 1) / 2 < pos := by
          have := Nat.div_le_self (pos - 1) 2
          omega
        have hplen : (pos - 1) / 2 < l.length := lt_trans hp h
        have hswap := swapT_perm l pos ((pos - 1) / 2) h hplen
        have hrec := siftUpGo_perm fuel (swapT l pos ((pos - 1) / 2)) start ((pos - 1) / 2)
          (by rw [swapT_length]; exact hplen)
        exact hrec.trans hswap
    · exact List.Perm.refl l

theorem siftUp_perm (l : List HuffTree) (start pos : Nat) (h : pos < l.length) :
    (siftUp l start pos).Perm l :=
  siftUpGo_perm pos l start pos h

theorem siftDownBotGo_perm : ∀ (fuel : Nat) (l : List HuffTree) (start pos : Nat),
    pos < l.length → (siftDownBotGo fuel l start pos).Perm l
  | 0, l, start, pos, h => siftUp_perm l start pos h
  | fuel + 1, l, start, pos, h => by
    unfold siftDownBotGo
    split
    · next hc =>
      have hpc : pickChild l (2 * pos + 1) < l.length := pickChild_lt hc
      have hswap := swapT_perm l pos (pickChild l (2 * pos + 1)) h hpc
      have hrec := siftDownBotGo_perm fuel (swapT l pos (pickChild l (2 * pos + 1))) start
        (pickChild l (2 * pos + 1)) (by rw [swapT_length]; exact hpc)
      exact hrec.trans hswap
    · exact siftUp_perm l start pos h

theorem siftDownBottom_perm (l : List HuffTree) (pos : Nat) (h : pos < l.length) :
    (siftDownBottom l pos).Perm l :=
  siftDownBotGo_perm l.length l pos pos h

theorem siftDownGo_perm : ∀ (fuel : Nat) (l : List HuffTree) (pos : Nat),
    pos < l.length → (siftDownGo fuel l pos).Perm l
  | 0, l, _, _ => List.Perm.refl l
  | fuel + 1, l, pos, h => by
    unfold siftDownGo
    split
    · next hc =>
      split
      · exact List.Perm.refl l
      · have hpc : pickChild l (2 * pos + 1) < l.length := pickChild_lt hc
        have hswap := swapT_perm l pos (pickChild l (2 * pos + 1)) h hpc
        have hrec := siftDownGo_perm fuel (swapT l pos (pickChild l (2 * pos + 1)))
          (pickChild l (2 * pos + 1)) (by rw [swapT_length]; exact hpc)
        exact hrec.trans hswap
    · exact List.Perm.refl l

theorem siftDown_perm (l : List HuffTree) (pos : Nat) (h : pos < l.length) :
    (siftDown l pos).Perm l :=
  siftDownGo_perm l.length l pos h

theorem rebuildFrom_perm : ∀ (l : List HuffTree) (n : Nat), 2 * n ≤ l.length →
    (rebuildFrom l n).Perm l
  | l, 0, _ => List.Perm.refl l
  | l, n + 1, h => by
    unfold rebuildFrom
    have hn : n < l.length := by omega
    have hsd := siftDown_perm l n hn
    have hrec := rebuildFrom_perm (siftDown l n) n
      (by rw [hsd.length_eq]; omega)
    exact hrec.trans hsd

theorem heapOfList_perm (l : List HuffTree) : (heapOfList l).Perm l := by
  unfold heapOfList
  exact rebuildFrom_perm l (l.length / 2)
    (by have := Nat.div_mul_le_self l.length 2; omega)

theorem heapPush_perm (l : List HuffTree) (t : HuffTree) :
    (heapPush l t).Perm (t :: l) := by
  unfold heapPush
  have h : l.length < (l ++ [t]).length := by simp
  exact (siftUp_perm (l ++ [t]) 0 l.length h).trans (List.perm_append_singleton t l)

theorem heapPop_nil : heapPop [] = none := rfl

theorem hget_last_concat {l : List HuffTree} (h : l ≠ []) :
    l.dropLast ++ [hget l (l.length - 1)] = l := by
  have hlen : l.length - 1 < l.length :=
    Nat.sub_lt (List.length_pos.mpr h) Nat.one_pos
  rw [hget_eq_getElem hlen]
  conv_rhs => rw [← List.dropLast_concat_getLast h]
  rw [List.getLast_eq_getElem]

theorem heapPop_spec {l : List HuffTree} (h : l ≠ []) :
    ∃ t h', heapPop l = some (t, h') ∧ (t :: h').Perm l ∧ h'.length + 1 = l.length := by
  match l with
  | [] => exact absurd rfl h
  | [a] =>
    refine ⟨a, [], ?_, List.Perm.refl _, rfl⟩
    simp [heapPop, hget]
  | a :: b :: rest =>
    have hne : a :: b :: rest ≠ [] := by simp
    have hcat := hget_last_concat hne
    have hlen0 : 0 <
        (hget (a :: b :: rest) ((a :: b :: rest).length - 1) :: (b :: rest).dropLast).length := by
      simp
    refine ⟨a, siftDownBottom
      (hget (a :: b :: rest) ((a :: b :: rest).length - 1) :: (b :: rest).dropLast) 0,
      rfl, ?_, ?_⟩
    · have hsd := siftDownBottom_perm
        (hget (a :: b :: rest) ((a :: b :: rest).length - 1) :: (b :: rest).dropLast) 0 hlen0
      refine (List.Perm.cons a hsd).trans ?_
      refine (List.Perm.cons a (List.perm_append_singleton _ _).symm).trans ?_
      have hfin : a :: ((b :: rest).dropLast ++
          [hget (a :: b :: rest) ((a :: b :: rest).length - 1)]) = a :: b :: rest := by
        rw [← List.cons_append]
        exact hcat
      rw [hfin]
    · have hsd := siftDownBottom_perm
        (hget (a :: b :: rest) ((a :: b :: rest).length - 1) :: (b :: rest).dropLast) 0 hlen0
      rw [hsd.length_eq]
      simp

theorem heapPop_none_iff {l : List HuffTree} : heapPop l = none ↔ l = [] := by
  constructor
  · intro hnone
    by_contra hne
    obtain ⟨t, h', heq, -, -⟩ := heapPop_spec hne
    rw [heq] at hnone
    cases hnone
  · intro h
    subst h
    rfl

/-! ## Huffman loop lemmas -/

theorem heapPop_eq_some {l : List HuffTree} {t : HuffTree} {h' : List HuffTree}
    (h : heapPop l = some (t, h')) : (t :: h').Perm l ∧ h'.length + 1 = l.length := by
  have hne : l ≠ [] := by
    intro hc
    rw [hc] at h
    cases h
  obtain ⟨t2, h2, heq, hperm, hlen⟩ := heapPop_spec hne
  rw [heq] at h
  injection h with hp
  cases hp
  exact ⟨hperm, hlen⟩

theorem heapPush_length (l : List HuffTree) (t : HuffTree) :
    (heapPush l t).length = l.length + 1 := by
  rw [(heapPush_perm l t).length_eq]
  rfl

theorem huffLoopF_nil (fuel : Nat) : huffLoopF fuel [] = none := by
  cases fuel <;> rfl

theorem huffLoopF_single (fuel : Nat) (t : HuffTree) :
    huffLoopF (fuel + 1) [t] = some t := rfl

theorem huffLoopF_isSome : ∀ (fuel : Nat) (heap : List HuffTree),
    heap.length ≤ fuel → heap ≠ [] → (huffLoopF fuel heap).isSome := by
  intro fuel
  induction fuel with
  | zero =>
    intro heap hle hne
    exact absurd (List.eq_nil_of_length_eq_zero (Nat.le_zero.mp hle)) hne
  | succ fuel ih =>
    intro heap hle hne
    obtain ⟨t1, h1, hpop1, hperm1, hlen1⟩ := heapPop_spec hne
    by_cases h1e : h1 = []
    · subst h1e
      simp [huffLoopF, hpop1, heapPop_nil]
    · obtain ⟨t2, h2, hpop2, hperm2, hlen2⟩ := heapPop_spec h1e
      have hstep : (huffLoopF fuel (heapPush h2 (t1.merge t2))).isSome := by
        apply ih
        · rw [heapPush_length]
          omega
        · intro hc
          have := congrArg List.length hc
          rw [heapPush_length] at this
          simp at this
      simpa [huffLoopF, hpop1, hpop2] using hstep

theorem huffLoopF_leaves : ∀ (fuel : Nat) (heap : List HuffTree) (t : HuffTree),
    huffLoopF fuel heap = some t → (leavesT t).Perm (heap.flatMap leavesT) := by
  intro fuel
  induction fuel with
  | zero =>
    intro heap t h
    cases h
  | succ fuel ih =>
    intro heap t h
    cases hpop1 : heapPop heap with
    | none =>
      rw [huffLoopF, hpop1] at h
      cases h
    | some p1 =>
      obtain ⟨t1, h1⟩ := p1
      obtain ⟨hperm1, hlen1⟩ := heapPop_eq_some hpop1
      cases hpop2 : heapPop h1 with
      | none =>
        rw [huffLoopF, hpop1] at h
        simp only [hpop2] at h
        injection h with ht
        subst ht
        have h1nil : h1 = [] := heapPop_none_iff.mp hpop2
        subst h1nil
        have := hperm1.flatMap_right leavesT
        simpa using this
      | some p2 =>
        obtain ⟨t2, h2⟩ := p2
        obtain ⟨hperm2, hlen2⟩ := heapPop_eq_some hpop2
        rw [huffLoopF, hpop1] at h
        simp only [hpop2] at h
        have hrec := ih (heapPush h2 (t1.merge t2)) t h
        have hpush := (heapPush_perm h2 (t1.merge t2)).flatMap_right leavesT
        have hcons2 := (hperm2.cons t1).flatMap_right leavesT
        have hcons1 := hperm1.flatMap_right leavesT
        refine hrec.trans (hpush.trans ?_)
        refine List.Perm.trans ?_ (hcons2.trans hcons1)
        simp [HuffTree.merge, leavesT, List.append_assoc]

theorem huffLoopF_node : ∀ (fuel : Nat) (heap : List HuffTree),
    heap.length ≤ fuel → 2 ≤ heap.length →
    ∃ a b, huffLoopF fuel heap = some (HuffTree.node a b) := by
  intro fuel
  induction fuel with
  | zero =>
    intro heap hle h2
    omega
  | succ fuel ih =>
    intro heap hle h2
    have hne : heap ≠ [] := by
      intro hc
      subst hc
      simp at h2
    obtain ⟨t1, h1, hpop1, hperm1, hlen1⟩ := heapPop_spec hne
    have h1ne : h1 ≠ [] := by
      intro hc
      subst hc
      simp at hlen1
      omega
    obtain ⟨t2, h2', hpop2, hperm2, hlen2⟩ := heapPop_spec h1ne
    by_cases hsz : heap.length = 2
    · have h2nil : h2' = [] := by
        apply List.eq_nil_of_length_eq_zero
        omega
      subst h2nil
      have hpush : heapPush [] (t1.merge t2) = [t1.merge t2] := rfl
      obtain ⟨f2, hf2⟩ : ∃ f2, fuel = f2 + 1 := ⟨fuel - 1, by omega⟩
      refine ⟨t1, t2, ?_⟩
      rw [huffLoopF, hpop1]
      simp only [hpop2]
      rw [hpush, hf2, huffLoopF_single]
      rfl
    · obtain ⟨a, b, hab⟩ := ih (heapPush h2' (t1.merge t2))
        (by rw [heapPush_length]; omega) (by rw [heapPush_length]; omega)
      refine ⟨a, b, ?_⟩
      rw [huffLoopF, hpop1]
      simp only [hpop2]
      exact hab

/-! ## Lemmas about `huffman` -/

theorem flatMap_leaves_map_new (m : List (Char × Nat)) :
    (m.map fun p => HuffTree.new p.1 p.2).flatMap leavesT = m.map fun p => (p.2, p.1) := by
  induction m with
  | nil => rfl
  | cons p rest ihm =>
    simp only [HuffTree.new] at ihm
    simp [HuffTree.new, leavesT, ihm]

theorem chars_eq_leaves (t : HuffTree) : t.chars = (leavesT t).map Prod.snd := by
  induction t with
  | leaf o c => rfl
  | node l r ihl ihr => simp [HuffTree.chars, leavesT, ihl, ihr]

theorem lettercount_eq_leaves (t : HuffTree) :
    t.lettercount = ((leavesT t).map Prod.fst).sum := by
  induction t with
  | leaf o c => rfl
  | node l r ihl ihr => simp [HuffTree.lettercount, leavesT, ihl, ihr]

theorem huffman_leaves {m : List (Char × Nat)} {t : HuffTree} (h : huffman m = some t) :
    (leavesT t).Perm (m.map fun p => (p.2, p.1)) := by
  unfold huffman at h
  have hperm := (heapOfList_perm (m.map fun p => HuffTree.new p.1 p.2)).flatMap_right leavesT
  refine (huffLoopF_leaves _ _ _ h).trans (hperm.trans ?_)
  rw [flatMap_leaves_map_new]

theorem huffman_chars {m : List (Char × Nat)} {t : HuffTree} (h : huffman m = some t) :
    t.chars.Perm (keysA m) := by
  rw [chars_eq_leaves]
  refine ((huffman_leaves h).map Prod.snd).trans ?_
  simp [keysA, List.map_map]
  exact List.Perm.refl _

theorem huffman_lettercount {m : List (Char × Nat)} {t : HuffTree} (h : huffman m = some t) :
    t.lettercount = sumVals m := by
  rw [lettercount_eq_leaves, ((huffman_leaves h).map Prod.fst).sum_eq]
  simp only [sumVals, List.map_map]
  rfl

theorem heapOfList_length_map (m : List (Char × Nat)) :
    (heapOfList (m.map fun p => HuffTree.new p.1 p.2)).length = m.length := by
  rw [(heapOfList_perm _).length_eq, List.length_map]

theorem huffman_isSome_iff (m : List (Char × Nat)) : (huffman m).isSome ↔ m ≠ [] := by
  constructor
  · intro h hc
    subst hc
    have : huffman ([] : List (Char × Nat)) = none := rfl
    rw [this] at h
    simp at h
  · intro hne
    unfold huffman
    apply huffLoopF_isSome _ _ (Nat.le_refl _)
    intro hc
    have hlen := congrArg List.length hc
    rw [heapOfList_length_map] at hlen
    exact hne (List.eq_nil_of_length_eq_zero (by simpa using hlen))

theorem heapOfList_singleton (t : HuffTree) : heapOfList [t] = [t] := by
  unfold heapOfList
  have h : ([t] : List HuffTree).length / 2 = 0 := by norm_num
  rw [h]
  rfl

theorem huffman_single (c : Char) (n : Nat) : huffman [(c, n)] = some (.leaf n c) := by
  unfold huffman
  simp only [List.map_cons, List.map_nil, HuffTree.new, heapOfList_singleton]
  rfl

theorem huffman_node {m : List (Char × Nat)} (h2 : 2 ≤ m.length) :
    ∃ a b, huffman m = some (.node a b) := by
  unfold huffman
  apply huffLoopF_node _ _ (Nat.le_refl _)
  rw [heapOfList_length_map]
  exact h2

/-! ## Association list and frequency lemmas -/

theorem lookupA_isSome_iff [DecidableEq α] {x : α} {m : List (α × β)} :
    (lookupA x m).isSome ↔ x ∈ keysA m := by
  induction m with
  | nil => simp [lookupA, keysA]
  | cons p rest ih =>
    obtain ⟨k, v⟩ := p
    by_cases hx : x = k
    · simp [lookupA, keysA, hx]
    · simp only [lookupA, if_neg hx]
      rw [ih]
      simp [keysA, hx]

theorem lookupA_eq_none_iff [DecidableEq α] {x : α} {m : List (α × β)} :
    lookupA x m = none ↔ x ∉ keysA m := by
  rw [← Option.not_isSome_iff_eq_none, lookupA_isSome_iff]

theorem lookupA_mem [DecidableEq α] {x : α} {v : β} {m : List (α × β)}
    (h : lookupA x m = some v) : (x, v) ∈ m := by
  induction m with
  | nil => cases h
  | cons p rest ih =>
    obtain ⟨k, w⟩ := p
    by_cases hx : x = k
    · subst hx
      rw [lookupA, if_pos rfl] at h
      injection h with h
      subst h
      exact List.mem_cons_self _ _
    · rw [lookupA, if_neg hx] at h
      exact List.mem_cons_of_mem _ (ih h)

theorem mem_lookupA [DecidableEq α] {x : α} {v : β} {m : List (α × β)}
    (hnd : (keysA m).Nodup) (h : (x, v) ∈ m) : lookupA x m = some v := by
  induction m with
  | nil => cases h
  | cons p rest ih =>
    obtain ⟨k, w⟩ := p
    rw [keysA, List.map_cons, List.nodup_cons] at hnd
    rcases List.mem_cons.mp h with heq | hmem
    · cases heq
      rw [lookupA, if_pos rfl]
    · have hxk : x ≠ k := by
        intro hc
        subst hc
        exact hnd.1 (List.mem_map.mpr ⟨(x, v), hmem, rfl⟩)
      rw [lookupA, if_neg hxk]
      exact ih hnd.2 hmem

theorem sortedKeys_nodup [LinearOrder α] {m : List (α × β)} (h : sortedKeys m) :
    (keysA m).Nodup := by
  have hp := List.chain'_iff_pairwise.mp h
  exact hp.imp ne_of_lt

theorem sortedKeys_cons [LinearOrder α] {k : α} {v : β} {m : List (α × β)} :
    sortedKeys ((k, v) :: m) ↔ (∀ k2 ∈ keysA m, k < k2) ∧ sortedKeys m := by
  simp only [sortedKeys, keysA, List.map_cons]
  rw [List.chain'_iff_pairwise, List.pairwise_cons, ← List.chain'_iff_pairwise]

theorem keysA_bump [LinearOrder α] {x y : α} {m : List (α × Nat)} :
    y ∈ keysA (bump x m) ↔ y = x ∨ y ∈ keysA m := by
  induction m with
  | nil => simp [bump, keysA]
  | cons p rest ih =>
    obtain ⟨k, v⟩ := p
    rcases lt_trichotomy x k with hlt | heq | hgt
    · rw [bump, if_pos hlt]
      simp [keysA]
    · have h1 : ¬ x < k := by rw [heq]; exact lt_irrefl k
      rw [bump, if_neg h1, if_pos heq]
      subst heq
      simp [keysA]
    · have h1 : ¬ x < k := not_lt_of_gt hgt
      have h2 : x ≠ k := ne_of_gt hgt
      rw [bump, if_neg h1, if_neg h2]
      simp only [keysA, List.map_cons, List.mem_cons] at ih ⊢
      rw [ih]
      tauto

theorem bump_sorted [LinearOrder α] {x : α} {m : List (α × Nat)} (h : sortedKeys m) :
    sortedKeys (bump x m) := by
  induction m with
  | nil => simp [bump, sortedKeys, keysA]
  | cons p rest ih =>
    obtain ⟨k, v⟩ := p
    rcases lt_trichotomy x k with hlt | heq | hgt
    · rw [bump, if_pos hlt]
      rw [sortedKeys_cons]
      refine ⟨?_, h⟩
      intro k2 hk2
      rcases (sortedKeys_cons.mp h) with ⟨hhd, -⟩
      simp only [keysA, List.map_cons, List.mem_cons] at hk2
      rcases hk2 with rfl | hk2
      · exact hlt
      · exact hlt.trans (hhd k2 hk2)
    · have h1 : ¬ x < k := by rw [heq]; exact lt_irrefl k
      rw [bump, if_neg h1, if_pos heq]
      exact h
    · have h1 : ¬ x < k := not_lt_of_gt hgt
      have h2 : x ≠ k := ne_of_gt hgt
      rw [bump, if_neg h1, if_neg h2]
      obtain ⟨hhd, hrest⟩ := sortedKeys_cons.mp h
      rw [sortedKeys_cons]
      refine ⟨?_, ih hrest⟩
      intro k2 hk2
      rcases keysA_bump.mp hk2 with rfl | hk2
      · exact hgt
      · exact hhd k2 hk2


theorem lookupA_bump_ne [LinearOrder α] {x y : α} (hne : y ≠ x) (m : List (α × Nat)) :
    lookupA y (bump x m) = lookupA y m := by
  induction m with
  | nil => simp [bump, lookupA, hne]
  | cons p rest ih =>
    obtain ⟨k, v⟩ := p
    rcases lt_trichotomy x k with hlt | heq | hgt
    · rw [bump, if_pos hlt]
      rw [lookupA, if_neg hne]
    · have h1 : ¬ x < k := by rw [heq]; exact lt_irrefl k
      rw [bump, if_neg h1, if_pos heq]
      subst heq
      by_cases hyk : y = x
      · exact absurd hyk hne
      · rw [lookupA, if_neg hyk, lookupA, if_neg hyk]
    · have h1 : ¬ x < k := not_lt_of_gt hgt
      have h2 : x ≠ k := ne_of_gt hgt
      rw [bump, if_neg h1, if_neg h2]
      by_cases hyk : y = k
      · rw [lookupA, if_pos hyk, lookupA, if_pos hyk]
      · rw [lookupA, if_neg hyk, lookupA, if_neg hyk]
        exact ih

theorem lookupA_bump_self [LinearOrder α] {x : α} {m : List (α × Nat)} (h : sortedKeys m) :
    lookupA x (bump x m) = some ((lookupA x m).getD 0 + 1) := by
  induction m with
  | nil => simp [bump, lookupA]
  | cons p rest ih =>
    obtain ⟨k, v⟩ := p
    obtain ⟨hhd, hrest⟩ := sortedKeys_cons.mp h
    rcases lt_trichotomy x k with hlt | heq | hgt
    · rw [bump, if_pos hlt]
      have hxk : x ≠ k := ne_of_lt hlt
      have hxrest : x ∉ keysA rest := by
        intro hc
        exact absurd (hlt.trans (hhd x hc)) (lt_irrefl x)
      rw [lookupA, if_pos rfl, lookupA, if_neg hxk,
        lookupA_eq_none_iff.mpr hxrest]
      rfl
    · have h1 : ¬ x < k := by rw [heq]; exact lt_irrefl k
      rw [bump, if_neg h1, if_pos heq]
      rw [lookupA, if_pos heq, lookupA, if_pos heq]
      rfl
    · have h1 : ¬ x < k := not_lt_of_gt hgt
      have h2 : x ≠ k := ne_of_gt hgt
      rw [bump, if_neg h1, if_neg h2]
      rw [lookupA, if_neg h2, lookupA, if_neg h2]
      exact ih hrest

theorem sumVals_bump [LinearOrder α] (x : α) (m : List (α × Nat)) :
    sumVals (bump x m) = sumVals m + 1 := by
  induction m with
  | nil => rfl
  | cons p rest ih =>
    obtain ⟨k, v⟩ := p
    rcases lt_trichotomy x k with hlt | heq | hgt
    · rw [bump, if_pos hlt]
      simp [sumVals]
      omega
    · have h1 : ¬ x < k := by rw [heq]; exact lt_irrefl k
      rw [bump, if_neg h1, if_pos heq]
      simp [sumVals]
      omega
    · have h1 : ¬ x < k := not_lt_of_gt hgt
      have h2 : x ≠ k := ne_of_gt hgt
      rw [bump, if_neg h1, if_neg h2]
      simp only [sumVals, List.map_cons, List.sum_cons] at ih ⊢
      omega

theorem foldl_bump_sorted [LinearOrder α] : ∀ (l : List α) (m : List (α × Nat)),
    sortedKeys m → sortedKeys (l.foldl (fun m e => bump e m) m)
  | [], _, h => h
  | a :: l, m, h => by
    rw [List.foldl_cons]
    exact foldl_bump_sorted l (bump a m) (bump_sorted h)

theorem frequency_sorted [LinearOrder α] (l : List α) : sortedKeys (frequency l) :=
  foldl_bump_sorted l [] (by simp [sortedKeys, keysA])

theorem foldl_bump_getD [LinearOrder α] (x : α) : ∀ (l : List α) (m : List (α × Nat)),
    sortedKeys m →
    (lookupA x (l.foldl (fun m e => bump e m) m)).getD 0 = (lookupA x m).getD 0 + l.count x
  | [], m, _ => by simp
  | a :: l, m, h => by
    rw [List.foldl_cons, foldl_bump_getD x l (bump a m) (bump_sorted h)]
    by_cases hax : a = x
    · subst hax
      rw [lookupA_bump_self h]
      simp [List.count_cons]
      omega
    · rw [lookupA_bump_ne (Ne.symm hax)]
      simp [List.count_cons, hax]

theorem foldl_bump_isSome [LinearOrder α] (x : α) : ∀ (l : List α) (m : List (α × Nat)),
    sortedKeys m →
    ((lookupA x (l.foldl (fun m e => bump e m) m)).isSome ↔ (lookupA x m).isSome ∨ x ∈ l)
  | [], m, _ => by simp
  | a :: l, m, h => by
    rw [List.foldl_cons, foldl_bump_isSome x l (bump a m) (bump_sorted h)]
    by_cases hax : a = x
    · subst hax
      rw [lookupA_bump_self h]
      simp
    · rw [lookupA_bump_ne (Ne.symm hax)]
      simp [hax, Ne.symm hax]

theorem foldl_bump_sum [LinearOrder α] : ∀ (l : List α) (m : List (α × Nat)),
    sumVals (l.foldl (fun m e => bump e m) m) = sumVals m + l.length
  | [], m => by simp
  | a :: l, m => by
    rw [List.foldl_cons, foldl_bump_sum l (bump a m), sumVals_bump]
    simp only [List.length_cons]
    omega

theorem frequency_lookup [LinearOrder α] (l : List α) (x : α) :
    lookupA x (frequency l) =
      if l.count x = 0 then none else some (l.count x) := by
  have hs : sortedKeys ([] : List (α × Nat)) := by simp [sortedKeys, keysA]
  have hgetD : (lookupA x (frequency l)).getD 0 = (lookupA x ([] : List (α × Nat))).getD 0 + l.count x :=
    foldl_bump_getD x l [] hs
  have hsome : ((lookupA x (frequency l)).isSome ↔ (lookupA x ([] : List (α × Nat))).isSome ∨ x ∈ l) :=
    foldl_bump_isSome x l [] hs
  simp only [lookupA, Option.getD_none, Option.isSome_none, Bool.false_eq_true, false_or,
    Nat.zero_add] at hgetD hsome
  by_cases hmem : x ∈ l
  · have hcount : l.count x ≠ 0 := by
      rw [Ne, List.count_eq_zero]
      simpa using hmem
    rw [if_neg hcount]
    have : (lookupA x (frequency l)).isSome := hsome.mpr hmem
    obtain ⟨v, hv⟩ := Option.isSome_iff_exists.mp this
    rw [hv]
    rw [hv] at hgetD
    simp only [Option.getD_some] at hgetD
    rw [← hgetD]
  · have hcount : l.count x = 0 := List.count_eq_zero.mpr (by simpa using hmem)
    rw [if_pos hcount]
    rw [← Option.not_isSome_iff_eq_none]
    intro hc
    exact hmem (hsome.mp hc)

theorem frequency_sum [LinearOrder α] (l : List α) : sumVals (frequency l) = l.length := by
  have := foldl_bump_sum l []
  simpa [frequency, sumVals] using this

theorem frequency_mem_keys [LinearOrder α] {l : List α} {x : α} :
    x ∈ keysA (frequency l) ↔ x ∈ l := by
  rw [← lookupA_isSome_iff]
  have hs : sortedKeys ([] : List (α × Nat)) := by simp [sortedKeys, keysA]
  have hsome := foldl_bump_isSome x l [] hs
  simpa [frequency, lookupA] using hsome

/-! ## Codebook lemmas -/

theorem mem_insertEntry [LinearOrder α] {p : α × β} {k : α} {v : β} {m : List (α × β)}
    (h : p ∈ insertEntry k v m) : p = (k, v) ∨ p ∈ m := by
  induction m with
  | nil =>
    rw [insertEntry] at h
    simp at h
    exact Or.inl h
  | cons q rest ih =>
    obtain ⟨k2, v2⟩ := q
    rw [insertEntry] at h
    split at h
    · rcases List.mem_cons.mp h with heq | hmem
      · exact Or.inl heq
      · exact Or.inr hmem
    · split at h
      · rcases List.mem_cons.mp h with heq | hmem
        · exact Or.inr (List.mem_cons.mpr (Or.inl heq))
        · rcases ih hmem with heq | hmem2
          · exact Or.inl heq
          · exact Or.inr (List.mem_cons.mpr (Or.inr hmem2))
      · rcases List.mem_cons.mp h with heq | hmem
        · exact Or.inl heq
        · exact Or.inr (List.mem_cons.mpr (Or.inr hmem))

theorem keysA_insertEntry [LinearOrder α] {y k : α} {v : β} {m : List (α × β)} :
    y ∈ keysA (insertEntry k v m) ↔ y = k ∨ y ∈ keysA m := by
  induction m with
  | nil => simp [insertEntry, keysA]
  | cons q rest ih =>
    obtain ⟨k2, v2⟩ := q
    rw [insertEntry]
    split
    · simp [keysA]
    · split
      · next hlt2 =>
        simp only [keysA, List.map_cons, List.mem_cons] at ih ⊢
        rw [ih]
        tauto
      · next hnlt hnlt2 =>
        have : k = k2 := le_antisymm (not_lt.mp hnlt2) (not_lt.mp hnlt)
        subst this
        simp [keysA]

theorem insertEntry_sorted [LinearOrder α] {k : α} {v : β} {m : List (α × β)}
    (h : sortedKeys m) : sortedKeys (insertEntry k v m) := by
  induction m with
  | nil => simp [insertEntry, sortedKeys, keysA]
  | cons q rest ih =>
    obtain ⟨k2, v2⟩ := q
    obtain ⟨hhd, hrest⟩ := sortedKeys_cons.mp h
    rw [insertEntry]
    split
    · next hlt =>
      rw [sortedKeys_cons]
      refine ⟨?_, h⟩
      intro k3 hk3
      simp only [keysA, List.map_cons, List.mem_cons] at hk3
      rcases hk3 with rfl | hk3
      · exact hlt
      · exact hlt.trans (hhd k3 hk3)
    · split
      · next hlt2 =>
        rw [sortedKeys_cons]
        refine ⟨?_, ih hrest⟩
        intro k3 hk3
        rcases keysA_insertEntry.mp hk3 with rfl | hk3
        · exact hlt2
        · exact hhd k3 hk3
      · next hnlt hnlt2 =>
        have : k = k2 := le_antisymm (not_lt.mp hnlt2) (not_lt.mp hnlt)
        subst this
        rw [sortedKeys_cons]
        exact ⟨hhd, hrest⟩

theorem mem_mergeA [LinearOrder α] {p : α × β} : ∀ {o l : List (α × β)},
    p ∈ mergeA l o → p ∈ l ∨ p ∈ o := by
  intro o
  induction o with
  | nil => exact fun h => Or.inl h
  | cons q rest ih =>
    intro l h
    rw [mergeA, List.foldl_cons] at h
    rcases ih h with hmem | hmem
    · rcases mem_insertEntry hmem with heq | hmem2
      · exact Or.inr (List.mem_cons.mpr (Or.inl (by rw [heq])))
      · exact Or.inl hmem2
    · exact Or.inr (List.mem_cons.mpr (Or.inr hmem))

theorem keysA_mergeA [LinearOrder α] {y : α} : ∀ {o l : List (α × β)},
    y ∈ keysA (mergeA l o) ↔ y ∈ keysA l ∨ y ∈ keysA o := by
  intro o
  induction o with
  | nil => simp [mergeA, keysA]
  | cons q rest ih =>
    intro l
    rw [mergeA, List.foldl_cons]
    have : (List.foldl (fun acc p => insertEntry p.1 p.2 acc) (insertEntry q.1 q.2 l) rest)
        = mergeA (insertEntry q.1 q.2 l) rest := rfl
    rw [this, ih, keysA_insertEntry]
    simp only [keysA, List.map_cons, List.mem_cons]
    tauto

theorem mergeA_sorted [LinearOrder α] : ∀ {o l : List (α × β)},
    sortedKeys l → sortedKeys (mergeA l o) := by
  intro o
  induction o with
  | nil => exact fun h => h
  | cons q rest ih =>
    intro l h
    rw [mergeA, List.foldl_cons]
    exact ih (insertEntry_sorted h)

theorem traverseCB_sorted : ∀ (t : HuffTree) (bv : List Bool),
    sortedKeys (traverseCB t bv)
  | .leaf _ _, bv => by simp [traverseCB, sortedKeys, keysA]
  | .node l r, bv => by
    rw [traverseCB]
    exact mergeA_sorted (traverseCB_sorted l (bv ++ [false]))

theorem keysA_traverseCB : ∀ (t : HuffTree) (bv : List Bool) (c : Char),
    c ∈ keysA (traverseCB t bv) ↔ c ∈ t.chars
  | .leaf _ chr, bv, c => by simp [traverseCB, keysA, HuffTree.chars]
  | .node l r, bv, c => by
    rw [traverseCB, keysA_mergeA, keysA_traverseCB l (bv ++ [false]) c,
      keysA_traverseCB r (bv ++ [true]) c, HuffTree.chars]
    simp

theorem traverseCB_code_pfx : ∀ (t : HuffTree) (bv : List Bool) (c : Char) (b : List Bool),
    (c, b) ∈ traverseCB t bv → bv <+: b
  | .leaf _ chr, bv, c, b => by
    intro h
    simp only [traverseCB, List.mem_singleton, Prod.mk.injEq] at h
    rw [h.2]
  | .node l r, bv, c, b => by
    intro h
    rcases mem_mergeA h with hmem | hmem
    · have := traverseCB_code_pfx l (bv ++ [false]) c b hmem
      exact (List.prefix_append bv [false]).trans this
    · have := traverseCB_code_pfx r (bv ++ [true]) c b hmem
      exact (List.prefix_append bv [true]).trans this

theorem traverseCB_node_len {l r : HuffTree} {bv : List Bool} {c : Char} {b : List Bool}
    (h : (c, b) ∈ traverseCB (.node l r) bv) : bv.length < b.length := by
  rcases mem_mergeA h with hmem | hmem
  · have := (traverseCB_code_pfx l (bv ++ [false]) c b hmem).length_le
    simp only [List.length_append, List.length_cons, List.length_nil] at this
    omega
  · have := (traverseCB_code_pfx r (bv ++ [true]) c b hmem).length_le
    simp only [List.length_append, List.length_cons, List.length_nil] at this
    omega

theorem traverseCB_pfxFree : ∀ (t : HuffTree) (bv : List Bool), prefixFree (traverseCB t bv)
  | .leaf _ chr, bv => by
    intro c1 b1 c2 b2 h1 h2 hne
    simp only [traverseCB, List.mem_singleton, Prod.mk.injEq] at h1 h2
    exact absurd (h1.1.trans h2.1.symm) hne
  | .node l r, bv => by
    intro c1 b1 c2 b2 h1 h2 hne hpfx
    rcases mem_mergeA h1 with hm1 | hm1 <;> rcases mem_mergeA h2 with hm2 | hm2
    · exact traverseCB_pfxFree l (bv ++ [false]) c1 b1 c2 b2 hm1 hm2 hne hpfx
    · have hp1 : bv ++ [false] <+: b1 := traverseCB_code_pfx l _ _ _ hm1
      have hp2 : bv ++ [true] <+: b2 := traverseCB_code_pfx r _ _ _ hm2
      have heq : (bv ++ [false] : List Bool) = bv ++ [true] :=
        pfx_eq_of_length (hp1.trans hpfx) hp2 (by simp)
      have hft : (false : Bool) = true := by
        have := List.append_cancel_left heq
        simp at this
      cases hft
    · have hp1 : bv ++ [true] <+: b1 := traverseCB_code_pfx r _ _ _ hm1
      have hp2 : bv ++ [false] <+: b2 := traverseCB_code_pfx l _ _ _ hm2
      have heq : (bv ++ [true] : List Bool) = bv ++ [false] :=
        pfx_eq_of_length (hp1.trans hpfx) hp2 (by simp)
      have htf : (true : Bool) = false := by
        have := List.append_cancel_left heq
        simp at this
      cases htf
    · exact traverseCB_pfxFree r (bv ++ [true]) c1 b1 c2 b2 hm1 hm2 hne hpfx

theorem codebook_sorted (t : HuffTree) : sortedKeys (codebook t) :=
  traverseCB_sorted t []

theorem codebook_keys (t : HuffTree) (c : Char) :
    c ∈ keysA (codebook t) ↔ c ∈ t.chars :=
  keysA_traverseCB t [] c

theorem codebook_pfxFree (t : HuffTree) : prefixFree (codebook t) :=
  traverseCB_pfxFree t []

theorem codebook_node_code_ne_nil {l r : HuffTree} {c : Char} {b : List Bool}
    (h : (c, b) ∈ codebook (.node l r)) : b ≠ [] := by
  have := traverseCB_node_len h
  intro hc
  rw [hc] at this
  simp at this

/-! ## Decode and encode lemmas -/

theorem isPfxOf_iff {a b : List Bool} : a.isPrefixOf b = true ↔ a <+: b :=
  List.isPrefixOf_iff_prefix

theorem findCode_mem : ∀ {cb : List (Char × List Bool)} {bits : List Bool}
    {c : Char} {code : List Bool},
    findCode cb bits = some (c, code) → (c, code) ∈ cb ∧ code <+: bits := by
  intro cb
  induction cb with
  | nil =>
    intro bits c code h
    cases h
  | cons p rest ih =>
    intro bits c code h
    obtain ⟨c1, code1⟩ := p
    rw [findCode] at h
    split at h
    · next hpf =>
      injection h with h
      cases h
      exact ⟨List.mem_cons_self _ _, isPfxOf_iff.mp hpf⟩
    · obtain ⟨hmem, hpfx⟩ := ih h
      exact ⟨List.mem_cons_of_mem _ hmem, hpfx⟩

theorem findCode_eq : ∀ {cb : List (Char × List Bool)}, (keysA cb).Nodup →
    prefixFree cb → ∀ {c : Char} {code bits : List Bool},
    lookupA c cb = some code → code <+: bits → findCode cb bits = some (c, code) := by
  intro cb
  induction cb with
  | nil =>
    intro _ _ c code bits hl
    cases hl
  | cons p rest ih =>
    intro hnd hpf c code bits hl hp
    obtain ⟨c1, code1⟩ := p
    by_cases hc : c = c1
    · subst hc
      rw [lookupA, if_pos rfl] at hl
      injection hl with hl
      subst hl
      rw [findCode, if_pos (isPfxOf_iff.mpr hp)]
    · rw [lookupA, if_neg hc] at hl
      have hmem : (c, code) ∈ rest := lookupA_mem hl
      cases hb : code1.isPrefixOf bits with
      | true =>
        exfalso
        have h1 : code1 <+: bits := isPfxOf_iff.mp hb
        rcases Nat.le_total code1.length code.length with hle | hle
        · exact hpf c1 code1 c code (List.mem_cons_self _ _)
            (List.mem_cons_of_mem _ hmem) (fun hcc => hc hcc.symm) (pfx_total h1 hp hle)
        · exact hpf c code c1 code1 (List.mem_cons_of_mem _ hmem)
            (List.mem_cons_self _ _) hc (pfx_total hp h1 hle)
      | false =>
        rw [findCode, if_neg (by simp [hb])]
        rw [keysA, List.map_cons, List.nodup_cons] at hnd
        refine ih hnd.2 ?_ hl hp
        intro a b c2 d ha hb2
        exact hpf a b c2 d (List.mem_cons_of_mem _ ha) (List.mem_cons_of_mem _ hb2)

theorem decodeF_empty (cb : List (Char × List Bool)) (f : Nat) :
    decodeF cb (f + 1) [] = some (.ok []) := rfl

theorem decodeF_mismatch {cb : List (Char × List Bool)} {bits : List Bool} {f : Nat}
    (hne : bits ≠ []) (hfc : findCode cb bits = none) :
    decodeF cb (f + 1) bits = some .panicNoEntry := by
  rw [decodeF, if_neg (by simpa [List.isEmpty_iff] using hne), hfc]

theorem decodeF_cons {cb : List (Char × List Bool)} {fuel : Nat} {bits : List Bool}
    (hne : ¬ bits.isEmpty = true) {c : Char} {code : List Bool}
    (hfc : findCode cb bits = some (c, code)) :
    decodeF cb (fuel + 1) bits = decodeStep c (decodeF cb fuel (bits.drop code.length)) := by
  rw [decodeF, if_neg hne, hfc]

theorem decodeF_mono {cb : List (Char × List Bool)} : ∀ {f : Nat} {bits : List Bool}
    {r : DecodeOut}, decodeF cb f bits = some r → ∀ {g : Nat}, f ≤ g →
    decodeF cb g bits = some r := by
  intro f
  induction f with
  | zero =>
    intro bits r h
    cases h
  | succ f ih =>
    intro bits r h g hg
    obtain ⟨g', rfl⟩ : ∃ g', g = g' + 1 := ⟨g - 1, by omega⟩
    by_cases hbe : bits.isEmpty = true
    · have hb : bits = [] := List.isEmpty_iff.mp hbe
      subst hb
      rw [decodeF_empty] at h
      rw [decodeF_empty]
      exact h
    · have hbne : bits ≠ [] := by simpa [List.isEmpty_iff] using hbe
      cases hfc : findCode cb bits with
      | none =>
        rw [decodeF_mismatch hbne hfc] at h
        rw [decodeF_mismatch hbne hfc]
        exact h
      | some p =>
        obtain ⟨c, code⟩ := p
        rw [decodeF_cons hbe hfc] at h
        rw [decodeF_cons hbe hfc]
        cases hrec : decodeF cb f (bits.drop code.length) with
        | none =>
          rw [hrec] at h
          exact Option.noConfusion h
        | some r' =>
          rw [hrec] at h
          rw [ih hrec (by omega)]
          exact h

theorem decodeF_isSome {cb : List (Char × List Bool)}
    (hcodes : ∀ p ∈ cb, p.2 ≠ []) : ∀ (f : Nat) (bits : List Bool),
    bits.length < f → (decodeF cb f bits).isSome := by
  intro f
  induction f with
  | zero =>
    intro bits h
    omega
  | succ f ih =>
    intro bits hlen
    by_cases hbe : bits.isEmpty = true
    · have hb : bits = [] := List.isEmpty_iff.mp hbe
      subst hb
      rw [decodeF_empty]
      rfl
    · have hbne : bits ≠ [] := by simpa [List.isEmpty_iff] using hbe
      cases hfc : findCode cb bits with
      | none =>
        rw [decodeF_mismatch hbne hfc]
        rfl
      | some p =>
        obtain ⟨c, code⟩ := p
        rw [decodeF_cons hbe hfc]
        obtain ⟨hmem, hpfx⟩ := findCode_mem hfc
        have hcne : code ≠ [] := hcodes (c, code) hmem
        have hlt : (bits.drop code.length).length < f := by
          rw [List.length_drop]
          have h1 : 1 ≤ code.length := by
            cases code with
            | nil => exact absurd rfl hcne
            | cons b bs => simp
          have h3 : 1 ≤ bits.length := by
            cases bits with
            | nil => exact absurd rfl hbne
            | cons b bs => simp
          omega
        obtain ⟨r, hr⟩ := Option.isSome_iff_exists.mp (ih (bits.drop code.length) hlt)
        rw [hr]
        cases r <;> rfl

theorem encodeSyms_some {cb : List (Char × List Bool)} : ∀ {M : List Char},
    (∀ c ∈ M, (lookupA c cb).isSome) → ∃ bs, encodeSyms cb M = some bs := by
  intro M
  induction M with
  | nil => exact fun _ => ⟨[], rfl⟩
  | cons c rest ih =>
    intro h
    obtain ⟨code, hcode⟩ := Option.isSome_iff_exists.mp (h c (List.mem_cons_self _ _))
    obtain ⟨bs, hbs⟩ := ih (fun x hx => h x (List.mem_cons_of_mem _ hx))
    refine ⟨code ++ bs, ?_⟩
    rw [encodeSyms, hcode, hbs]

theorem roundTrip_core {cb : List (Char × List Bool)} (hs : sortedKeys cb)
    (hpf : prefixFree cb) : ∀ (M : List Char) (bs : List Bool),
    (∀ c ∈ M, ∃ code, lookupA c cb = some code ∧ code ≠ []) →
    encodeSyms cb M = some bs →
    decodeF cb (bs.length + 1) bs = some (.ok M) := by
  intro M
  induction M with
  | nil =>
    intro bs _ henc
    rw [encodeSyms] at henc
    injection henc with h
    subst h
    rfl
  | cons c rest ih =>
    intro bs hcov henc
    obtain ⟨code, hcode, hcne⟩ := hcov c (List.mem_cons_self _ _)
    rw [encodeSyms, hcode] at henc
    cases hrest : encodeSyms cb rest with
    | none =>
      rw [hrest] at henc
      exact Option.noConfusion henc
    | some bs' =>
      rw [hrest] at henc
      injection henc with h
      subst h
      have hbne : ¬ ((code ++ bs').isEmpty = true) := by
        cases code with
        | nil => exact absurd rfl hcne
        | cons b bstl => simp
      have hfind : findCode cb (code ++ bs') = some (c, code) :=
        findCode_eq (sortedKeys_nodup hs) hpf hcode ⟨bs', rfl⟩
      rw [decodeF_cons hbne hfind]
      have hdrop : (code ++ bs').drop code.length = bs' := List.drop_left _ _
      rw [hdrop]
      have hrec := ih bs' (fun x hx => hcov x (List.mem_cons_of_mem _ hx)) hrest
      have hmono : decodeF cb (code ++ bs').length bs' = some (.ok rest) := by
        apply decodeF_mono hrec
        rw [List.length_append]
        have h1 : 1 ≤ code.length := by
          cases code with
          | nil => exact absurd rfl hcne
          | cons b bstl => simp
        omega
      rw [hmono]
      rfl

theorem decodeF_sound {cb : List (Char × List Bool)} (hs : sortedKeys cb) :
    ∀ {f : Nat} {bits : List Bool} {s : List Char},
    decodeF cb f bits = some (.ok s) → encodeSyms cb s = some bits := by
  intro f
  induction f with
  | zero =>
    intro bits s h
    cases h
  | succ f ih =>
    intro bits s h
    by_cases hbe : bits.isEmpty = true
    · have hbnil : bits = [] := List.isEmpty_iff.mp hbe
      subst hbnil
      rw [decodeF_empty] at h
      injection h with h2
      injection h2 with h3
      subst h3
      rfl
    · have hbne : bits ≠ [] := by simpa [List.isEmpty_iff] using hbe
      cases hfc : findCode cb bits with
      | none =>
        rw [decodeF_mismatch hbne hfc] at h
        injection h with h2
        cases h2
      | some p =>
        obtain ⟨c, code⟩ := p
        rw [decodeF_cons hbe hfc] at h
        cases hrec : decodeF cb f (bits.drop code.length) with
        | none =>
          rw [hrec] at h
          exact Option.noConfusion h
        | some r =>
          rw [hrec] at h
          cases r with
          | panicNoEntry =>
            injection h with h2
            cases h2
          | ok s' =>
            injection h with h2
            injection h2 with h3
            subst h3
            obtain ⟨hmem, hpfx⟩ := findCode_mem hfc
            have hlook : lookupA c cb = some code := mem_lookupA (sortedKeys_nodup hs) hmem
            rw [encodeSyms, hlook, ih hrec]
            obtain ⟨tail, htail⟩ := hpfx
            rw [← htail, List.drop_left]


/-! ## Assembly lemmas for the claims -/

theorem encode_eq_of {M : List Char} {t : HuffTree} (ht : huffman (frequency M) = some t) :
    encode M = match encodeSyms (codebook t) M with
      | none => .panicked
      | some bits => .ok (codebook t) bits := by
  unfold encode
  rw [ht]

theorem encode_eq_none {M : List Char} (ht : huffman (frequency M) = none) :
    encode M = .nothing := by
  unfold encode
  rw [ht]

theorem huffman_freq_cover {M : List Char} {t : HuffTree}
    (h : huffman (frequency M) = some t) {c : Char} (hc : c ∈ M) : c ∈ t.chars := by
  rw [(huffman_chars h).mem_iff]
  exact frequency_mem_keys.mpr hc

theorem codebook_lookup_isSome {t : HuffTree} {c : Char} (hc : c ∈ t.chars) :
    (lookupA c (codebook t)).isSome := by
  rw [lookupA_isSome_iff]
  exact (codebook_keys t c).mpr hc

theorem foldl_bump_const (c : Char) : ∀ (M : List Char) (k : Nat), (∀ x ∈ M, x = c) →
    M.foldl (fun m e => bump e m) [(c, k)] = [(c, k + M.length)] := by
  intro M
  induction M with
  | nil =>
    intro k _
    simp
  | cons x rest ih =>
    intro k hall
    have hx : x = c := hall x (List.mem_cons_self _ _)
    subst hx
    rw [List.foldl_cons]
    have hbump : bump x [(x, k)] = [(x, k + 1)] := by
      rw [bump, if_neg (lt_irrefl x), if_pos rfl]
    rw [hbump, ih (k + 1) (fun y hy => hall y (List.mem_cons_of_mem _ hy))]
    have heq : k + 1 + rest.length = k + (x :: rest).length := by
      simp only [List.length_cons]
      omega
    rw [heq]

theorem frequency_const {c : Char} {M : List Char} (hne : M ≠ [])
    (hall : ∀ x ∈ M, x = c) : frequency M = [(c, M.length)] := by
  cases M with
  | nil => exact absurd rfl hne
  | cons x rest =>
    have hx : x = c := hall x (List.mem_cons_self _ _)
    subst hx
    unfold frequency
    rw [List.foldl_cons]
    have hbump : bump x ([] : List (Char × Nat)) = [(x, 1)] := rfl
    rw [hbump, foldl_bump_const x rest 1 (fun y hy => hall y (List.mem_cons_of_mem _ hy))]
    have heq : 1 + rest.length = (x :: rest).length := by
      simp only [List.length_cons]
      omega
    rw [heq]

theorem encodeSyms_const (c : Char) : ∀ (M : List Char), (∀ x ∈ M, x = c) →
    encodeSyms [(c, ([] : List Bool))] M = some [] := by
  intro M
  induction M with
  | nil =>
    intro _
    rfl
  | cons x rest ih =>
    intro hall
    have hx : x = c := hall x (List.mem_cons_self _ _)
    subst hx
    rw [encodeSyms]
    have hl : lookupA x [(x, ([] : List Bool))] = some [] := by
      rw [lookupA, if_pos rfl]
    rw [hl, ih (fun y hy => hall y (List.mem_cons_of_mem _ hy))]
    rfl

/-! ## Claim theorems -/

/-- C1 (amended): for every message containing at least two distinct symbols,
encoding succeeds and decoding the produced bit sequence with the produced
codebook yields the original message. (As stated over all non-empty messages
the claim fails: a message with a single distinct symbol encodes to the empty
bit sequence and decodes to the empty message, see the counterexample.) -/
theorem round_trip (M : List Char) (c1 c2 : Char) (h1 : c1 ∈ M) (h2 : c2 ∈ M)
    (hne : c1 ≠ c2) :
    ∃ cb bits, encode M = .ok cb bits ∧ decode cb bits = some (.ok M) := by
  have hkey1 : c1 ∈ keysA (frequency M) := frequency_mem_keys.mpr h1
  have hkey2 : c2 ∈ keysA (frequency M) := frequency_mem_keys.mpr h2
  have hlen2 : 2 ≤ (frequency M).length := by
    have := two_le_length_of_mem_ne hkey1 hkey2 hne
    simpa [keysA] using this
  obtain ⟨a, b, hab⟩ := huffman_node hlen2
  have hcov : ∀ c ∈ M, ∃ code, lookupA c (codebook (.node a b)) = some code ∧ code ≠ [] := by
    intro c hc
    have hchars : c ∈ (HuffTree.node a b).chars := huffman_freq_cover hab hc
    obtain ⟨code, hcode⟩ := Option.isSome_iff_exists.mp (codebook_lookup_isSome hchars)
    exact ⟨code, hcode, codebook_node_code_ne_nil (lookupA_mem hcode)⟩
  have hcov2 : ∀ c ∈ M, (lookupA c (codebook (.node a b))).isSome := by
    intro c hc
    obtain ⟨code, hcode, -⟩ := hcov c hc
    rw [hcode]
    rfl
  obtain ⟨bs, hbs⟩ := encodeSyms_some hcov2
  refine ⟨codebook (.node a b), bs, ?_, ?_⟩
  · rw [encode_eq_of hab, hbs]
  · exact roundTrip_core (codebook_sorted _) (codebook_pfxFree _) M bs hcov hbs

/-- C1 witness: the two-symbol message "AB" round-trips. -/
theorem round_trip_witness :
    ∃ cb bits, encode ['A', 'B'] = .ok cb bits ∧ decode cb bits = some (.ok ['A', 'B']) :=
  round_trip ['A', 'B'] 'A' 'B' (by decide) (by decide) (by decide)

/-- C1 counterexample: the non-empty single-symbol message "A" does not
round-trip — it encodes to the empty bit sequence, which decodes to the empty
message, not to "A". -/
theorem round_trip_fails_single_symbol :
    encode ['A'] = .ok [('A', [])] [] ∧
    decode [('A', [])] [] = some (.ok []) ∧
    some (DecodeOut.ok []) ≠ some (DecodeOut.ok ['A']) := by decide

/-- C2 (amended): when no codebook entry's code is a prefix of the remaining
bits, decode fails via `panic!("No entry in code")` — an unconditional abort,
modelled by the distinguished `panicNoEntry` outcome, not a typed recoverable
error value; and decode never returns a wrong decoded string: any successful
decode output re-encodes to exactly the input bit sequence. -/
theorem decode_mismatch_behaviour (cb : List (Char × List Bool)) (bits : List Bool)
    (hs : sortedKeys cb) :
    (bits ≠ [] → findCode cb bits = none → decode cb bits = some .panicNoEntry) ∧
    (∀ f s, decodeF cb f bits = some (.ok s) → encodeSyms cb s = some bits) := by
  constructor
  · intro hne hfc
    exact decodeF_mismatch hne hfc
  · intro f s h
    exact decodeF_sound hs h

/-- C2 witness: a concrete mismatching input where decode panics. -/
theorem decode_mismatch_behaviour_witness :
    sortedKeys [('A', ([false] : List Bool))] ∧
    decode [('A', [false])] [true] = some DecodeOut.panicNoEntry := by
  have h := decode_mismatch_behaviour [('A', [false])] [true] (by simp [sortedKeys, keysA])
  exact ⟨by simp [sortedKeys, keysA], h.1 (by decide) (by decide)⟩

/-- C2 counterexample: decode of a stray bit under the codebook of "A"-like
alphabets results in the `panic!` outcome, which models a process abort, not
a typed catchable `CodebookMismatch` error. -/
theorem decode_mismatch_panics_example :
    decode [('A', [false])] [true] = some DecodeOut.panicNoEntry := by decide

/-- C3 (amended): for every message with exactly one distinct symbol, the
built tree is the single leaf for that symbol, the codebook has exactly one
entry whose bit sequence is the empty (length-0) sequence — within the
documented degenerate range — but the round-trip does not reconstruct the
message: encode produces the empty bit sequence and decode returns the empty
message. -/
theorem single_symbol_behaviour (M : List Char) (c : Char) (hne : M ≠ [])
    (hall : ∀ x ∈ M, x = c) :
    huffman (frequency M) = some (.leaf M.length c) ∧
    codebook (.leaf M.length c) = [(c, [])] ∧
    encode M = .ok [(c, [])] [] ∧
    decode [(c, [])] [] = some (.ok []) := by
  have hfreq : frequency M = [(c, M.length)] := frequency_const hne hall
  have hhuff : huffman (frequency M) = some (.leaf M.length c) := by
    rw [hfreq]
    exact huffman_single c M.length
  refine ⟨hhuff, rfl, ?_, rfl⟩
  rw [encode_eq_of hhuff]
  have henc : encodeSyms (codebook (.leaf M.length c)) M = some [] := by
    rw [show codebook (.leaf M.length c) = [(c, [])] from rfl]
    exact encodeSyms_const c M hall
  rw [henc]
  rfl

/-- C3 witness: the message "AAAA". -/
theorem single_symbol_witness :
    huffman (frequency ['A', 'A', 'A', 'A']) =
      some (.leaf (['A', 'A', 'A', 'A'] : List Char).length 'A') ∧
    encode ['A', 'A', 'A', 'A'] = .ok [('A', [])] [] :=
  ⟨(single_symbol_behaviour ['A', 'A', 'A', 'A'] 'A' (by decide) (by decide)).1,
   (single_symbol_behaviour ['A', 'A', 'A', 'A'] 'A' (by decide) (by decide)).2.2.1⟩

/-- C3 counterexample: for "AAAA", encode yields the empty bit sequence and
decode returns the empty message — not "AAAA" — so the claimed round-trip
under the empty-code policy fails. -/
theorem single_symbol_roundtrip_fails :
    encode ['A', 'A', 'A', 'A'] = .ok [('A', [])] [] ∧
    decode [('A', [])] [] = some (.ok []) ∧
    (['A', 'A', 'A', 'A'] : List Char) ≠ [] := by decide

/-- C4 (amended): the priority queue orders trees by total weight alone —
`cmp` is the reversed weight comparison, so the max-heap pops a minimal
weight tree first; ties between equal-weight trees compare as `eq` and are
NOT broken by any secondary key (see the counterexample: structurally
distinct equal-weight trees compare equal), their order being left to the
heap's incidental internal layout. -/
theorem cmp_weight_only (a b : HuffTree) :
    (HuffTree.cmp a b = .eq ↔ a.lettercount = b.lettercount) ∧
    (HuffTree.cmp a b = .lt ↔ b.lettercount < a.lettercount) ∧
    (HuffTree.cmp a b = .gt ↔ a.lettercount < b.lettercount) := by
  have h1 : ∀ o : Ordering, o.swap = .eq ↔ o = .eq := by
    intro o
    cases o <;> decide
  have h2 : ∀ o : Ordering, o.swap = .lt ↔ o = .gt := by
    intro o
    cases o <;> decide
  have h3 : ∀ o : Ordering, o.swap = .gt ↔ o = .lt := by
    intro o
    cases o <;> decide
  refine ⟨?_, ?_, ?_⟩
  · show (compare a.lettercount b.lettercount).swap = .eq ↔ _
    rw [h1, Nat.compare_eq_eq]
  · show (compare a.lettercount b.lettercount).swap = .lt ↔ _
    rw [h2, Nat.compare_eq_gt]
  · show (compare a.lettercount b.lettercount).swap = .gt ↔ _
    rw [h3, Nat.compare_eq_lt]

/-- C4 counterexample: two structurally distinct trees of equal weight
compare as equal — the ordering has no stable, deterministic secondary key
(neither symbol order nor insertion order distinguishes them). -/
theorem cmp_no_secondary_key :
    HuffTree.cmp (.leaf 1 'A') (.leaf 1 'B') = .eq ∧
    HuffTree.leaf 1 'A' ≠ HuffTree.leaf 1 'B' := by decide

/-- C5: `frequency` assigns each distinct symbol of the sequence its exact
number of occurrences, symbols not occurring are absent from the table, and
the counts sum to the length of the sequence — for every finite sequence
over any totally ordered symbol type. -/
theorem frequency_correct {α : Type} [LinearOrder α] (l : List α) :
    (∀ x : α, lookupA x (frequency l) =
      if l.count x = 0 then none else some (l.count x)) ∧
    sumVals (frequency l) = l.length :=
  ⟨fun x => frequency_lookup l x, frequency_sum l⟩

/-- C6: every derived codebook has exactly one entry per distinct symbol of
the source tree (its key set is the set of leaf characters and its keys are
duplicate-free), and no code in it is a prefix of another distinct entry's
code. -/
theorem codebook_entries (t : HuffTree) :
    (∀ c : Char, (∃ bv, (c, bv) ∈ codebook t) ↔ c ∈ t.chars) ∧
    (keysA (codebook t)).Nodup ∧ prefixFree (codebook t) := by
  refine ⟨?_, sortedKeys_nodup (codebook_sorted t), codebook_pfxFree t⟩
  intro c
  rw [← codebook_keys t c]
  constructor
  · rintro ⟨bv, hbv⟩
    exact List.mem_map.mpr ⟨(c, bv), hbv, rfl⟩
  · intro hc
    obtain ⟨p, hp, hfst⟩ := List.mem_map.mp hc
    refine ⟨p.2, ?_⟩
    have h2 : (c, p.2) = p := by
      rw [← hfst]
    rw [h2]
    exact hp

/-- C7: in every tree built from a message's frequency table, the weight of
every internal node equals the sum of its children's weights (the weight is
computed on demand as exactly that sum), and the root's weight equals the
length of the source message. -/
theorem weight_conservation (M : List Char) (t : HuffTree)
    (h : huffman (frequency M) = some t) :
    (∀ l r, HuffTree.node l r ∈ subtrees t →
      (HuffTree.node l r).lettercount = l.lettercount + r.lettercount) ∧
    t.lettercount = M.length := by
  constructor
  · intro l r _
    rfl
  · rw [huffman_lettercount h, frequency_sum]

/-- C7 witness: the tree built for "AB" has root weight 2. -/
theorem weight_conservation_witness :
    huffman (frequency ['A', 'B']) = some (.node (.leaf 1 'A') (.leaf 1 'B')) ∧
    (HuffTree.node (.leaf 1 'A') (.leaf 1 'B')).lettercount = (['A', 'B'] : List Char).length :=
  ⟨by decide, (weight_conservation ['A', 'B'] _ (by decide)).2⟩

/-- C8: the tree builder returns a tree exactly when the frequency table is
non-empty (and `none` exactly when it is empty), and a single-entry table
yields the single-leaf tree. -/
theorem build_tree_result (m : List (Char × Nat)) (c : Char) (n : Nat) :
    ((huffman m).isSome ↔ m ≠ []) ∧ huffman [(c, n)] = some (.leaf n c) :=
  ⟨huffman_isSome_iff m, huffman_single c n⟩

/-- C9: for every message, every symbol of the message has an entry in the
codebook derived from the message's own frequency table, so the encoder's
missing-codebook-entry panic is unreachable: `encode` never reaches the
`panicked` outcome. -/
theorem encode_never_hits_missing_entry (M : List Char) : encode M ≠ .panicked := by
  cases ht : huffman (frequency M) with
  | none =>
    rw [encode_eq_none ht]
    intro hc
    cases hc
  | some t =>
    have hcov : ∀ c ∈ M, (lookupA c (codebook t)).isSome := fun c hc =>
      codebook_lookup_isSome (huffman_freq_cover ht hc)
    obtain ⟨bs, hbs⟩ := encodeSyms_some hcov
    rw [encode_eq_of ht, hbs]
    intro hc
    cases hc

/-- C10: for every codebook whose codes are all non-empty, the decode loop
terminates on every finite bit sequence (each iteration either consumes at
least one matched code of length at least one, stops, or panics), and decode
of the empty bit sequence returns the empty message for any codebook and any
fuel. -/
theorem decode_terminates (cb : List (Char × List Bool)) (bits : List Bool)
    (hcodes : ∀ p ∈ cb, p.2 ≠ []) :
    (decode cb bits).isSome ∧ (∀ f : Nat, decodeF cb (f + 1) [] = some (.ok [])) :=
  ⟨decodeF_isSome hcodes (bits.length + 1) bits (by omega),
   fun f => decodeF_empty cb f⟩

/-- C10 witness: a concrete codebook with non-empty codes and a concrete bit
sequence on which decode terminates. -/
theorem decode_terminates_witness :
    (∀ p ∈ [('A', ([false] : List Bool))], p.2 ≠ []) ∧
    (decode [('A', [false])] [true, true]).isSome :=
  ⟨by decide, (decode_terminates [('A', [false])] [true, true] (by decide)).1⟩
